import Mathlib

/-!
Verification of `util/pcqueue.hh`: a shallow embedding of the bounded
multi-producer/multi-consumer queue `PCQueue`, the single-producer/
single-consumer `UnboundedSingleQueue`, and the `Semaphore` wrapper.

Modelling conventions:
* a semaphore is a `Nat` counter; `WaitSemaphore` on a zero counter blocks,
  which we render as the operation returning `none`;
* operations that the mutexes serialize in the C++ code are modelled as
  atomic steps on an explicit queue state (the standard linearization of
  the critical sections);
* a throwing `operator=` / `std::swap` of `T` is modelled by a flag
  (`Option α` for the copied value, or a `Bool`); the `catch` block of the
  C++ code, which reposts the semaphore and rethrows, is rendered as an
  `Except.error` carrying the queue state left behind after the rollback;
* raw pointers into the ring buffer (`produce_at_`, `consume_at_`, `end_`)
  become indices into a `List`; `++p == end_` becomes `i + 1 = length`.
-/

/-- State of `util::PCQueue<T>` (pcqueue.hh lines 118-220):
`empty`/`used` are the values of the two semaphores `empty_` and `used_`,
`storage` is the ring buffer `storage_` (its length is the `size` passed to
the constructor, so `end_` corresponds to index `storage.length`), and
`produce_at`/`consume_at` are the cursor offsets `produce_at_ - storage_`
and `consume_at_ - storage_`. -/
structure PCQueue (α : Type) where
  empty : Nat
  used : Nat
  storage : List α
  produce_at : Nat
  consume_at : Nat
deriving DecidableEq, Repr

/-- The constructor `PCQueue(size_t size)` (lines 120-125): `empty_(size)`,
`used_(0)`, `storage_(new T[size])` default-constructs every slot, and both
cursors start at the beginning of the buffer. -/
def mkPCQueue (α : Type) [Inhabited α] (size : Nat) : PCQueue α :=
  { empty := size
    used := 0
    storage := List.replicate size default
    produce_at := 0
    consume_at := 0 }

namespace PCQueue

variable {α : Type} [Inhabited α]

/-- `PCQueue::Produce` (lines 128-141), with the assignment `*produce_at_ = val`
allowed to throw: the argument `val = none` means the assignment throws.
`none` result: `WaitSemaphore(empty_)` blocks (counter is zero).
`some (.error q')`: the assignment threw; the `catch` block posted `empty_`
back and rethrew, leaving state `q'`.
`some (.ok q')`: the value was stored, the cursor advanced (wrapping at
`end_`), and `used_` was posted. -/
def ProduceAttempt (q : PCQueue α) (val : Option α) :
    Option (Except (PCQueue α) (PCQueue α)) :=
  if q.empty = 0 then none
  else
    let q1 : PCQueue α := { q with empty := q.empty - 1 }
    match val with
    | none => some (.error { q1 with empty := q1.empty + 1 })
    | some v =>
      let q2 : PCQueue α := { q1 with storage := q1.storage.set q1.produce_at v }
      let q3 : PCQueue α :=
        { q2 with produce_at :=
            if q2.produce_at + 1 = q2.storage.length then 0 else q2.produce_at + 1 }
      some (.ok { q3 with used := q3.used + 1 })

/-- `PCQueue::Produce` when the assignment does not throw. -/
def Produce (q : PCQueue α) (v : α) : Option (PCQueue α) :=
  match q.ProduceAttempt (some v) with
  | some (.ok q') => some q'
  | _ => none

/-- `PCQueue::ProduceSwap` (lines 144-157): identical control flow to
`Produce` but `std::swap(*produce_at_, val)` exchanges the slot's prior
contents with `val`; on success the pair carries the caller's variable's
new value (the old slot contents). `fail = true` means the swap throws. -/
def ProduceSwapAttempt (q : PCQueue α) (val : α) (fail : Bool) :
    Option (Except (PCQueue α) (α × PCQueue α)) :=
  if q.empty = 0 then none
  else
    let q1 : PCQueue α := { q with empty := q.empty - 1 }
    if fail then some (.error { q1 with empty := q1.empty + 1 })
    else
      let old := q1.storage.getD q1.produce_at default
      let q2 : PCQueue α := { q1 with storage := q1.storage.set q1.produce_at val }
      let q3 : PCQueue α :=
        { q2 with produce_at :=
            if q2.produce_at + 1 = q2.storage.length then 0 else q2.produce_at + 1 }
      some (.ok (old, { q3 with used := q3.used + 1 }))

/-- `PCQueue::Consume(T&)` (lines 161-175), with the assignment
`out = *consume_at_` allowed to throw (`fail = true`).
`none`: `WaitSemaphore(used_)` blocks.
`some (.error q')`: the assignment threw; the `catch` block posted `used_`
back and rethrew, leaving state `q'`.
`some (.ok (out, q'))`: `out` received the slot's value, the cursor
advanced (wrapping at `end_`), and `empty_` was posted. -/
def ConsumeAttempt (q : PCQueue α) (fail : Bool) :
    Option (Except (PCQueue α) (α × PCQueue α)) :=
  if q.used = 0 then none
  else
    let q1 : PCQueue α := { q with used := q.used - 1 }
    if fail then some (.error { q1 with used := q1.used + 1 })
    else
      let out := q1.storage.getD q1.consume_at default
      let q2 : PCQueue α :=
        { q1 with consume_at :=
            if q1.consume_at + 1 = q1.storage.length then 0 else q1.consume_at + 1 }
      some (.ok (out, { q2 with empty := q2.empty + 1 }))

/-- `PCQueue::Consume(T&)` when the assignment does not throw. -/
def Consume (q : PCQueue α) : Option (α × PCQueue α) :=
  match q.ConsumeAttempt false with
  | some (.ok r) => some r
  | _ => none

/-- `PCQueue::ConsumeSwap` (lines 178-192): like `Consume` but
`std::swap(out, *consume_at_)` leaves the caller's previous `out` value in
the vacated slot. `fail = true` means the swap throws. -/
def ConsumeSwapAttempt (q : PCQueue α) (out : α) (fail : Bool) :
    Option (Except (PCQueue α) (α × PCQueue α)) :=
  if q.used = 0 then none
  else
    let q1 : PCQueue α := { q with used := q.used - 1 }
    if fail then some (.error { q1 with used := q1.used + 1 })
    else
      let got := q1.storage.getD q1.consume_at default
      let q2 : PCQueue α := { q1 with storage := q1.storage.set q1.consume_at out }
      let q3 : PCQueue α :=
        { q2 with consume_at :=
            if q2.consume_at + 1 = q2.storage.length then 0 else q2.consume_at + 1 }
      some (.ok (got, { q3 with empty := q3.empty + 1 }))

end PCQueue

/-- One call in a client's interleaved history of a `PCQueue`: a `Produce`
of a given value, or a `Consume`. -/
inductive QOp (α : Type) where
  | prod (v : α)
  | cons
deriving DecidableEq, Repr

/-- Run a linearized sequence of successful `Produce`/`Consume` calls.
Returns `none` when some call would block forever (a `Produce` into a full
queue with no consumer left, or a `Consume` of an item never produced);
otherwise returns the final state and the list of consumed values in the
order the `Consume` calls returned them. -/
def runPC {α : Type} [Inhabited α] (q : PCQueue α) :
    List (QOp α) → Option (PCQueue α × List α)
  | [] => some (q, [])
  | .prod v :: rest =>
    match q.Produce v with
    | none => none
    | some q' => runPC q' rest
  | .cons :: rest =>
    match q.Consume with
    | none => none
    | some (out, q') =>
      match runPC q' rest with
      | none => none
      | some (qf, outs) => some (qf, out :: outs)

/-- The values produced by a history, in order. -/
def producedOf {α : Type} : List (QOp α) → List α
  | [] => []
  | .prod v :: rest => v :: producedOf rest
  | .cons :: rest => producedOf rest

/-- The number of `Consume` calls in a history. -/
def numCons {α : Type} : List (QOp α) → Nat
  | [] => 0
  | .prod _ :: rest => numCons rest
  | .cons :: rest => numCons rest + 1

/-- Cursor arithmetic: the wrap test `++p == end_` implements increment
modulo the buffer length. -/
theorem wrapinc_mod {k n : Nat} (hk : 0 < k) :
    (if n % k + 1 = k then 0 else n % k + 1) = (n + 1) % k := by
  have h1 : n % k < k := Nat.mod_lt _ hk
  have h2 : (n % k + 1) % k = (n + 1) % k := Nat.mod_add_mod n k 1
  by_cases h : n % k + 1 = k
  · rw [if_pos h, ← h2, h, Nat.mod_self]
  · rw [if_neg h, ← h2]
    exact (Nat.mod_eq_of_lt (by omega)).symm

/-- Two distinct positions less than a ring length apart occupy distinct
ring slots. -/
theorem mod_ne_of_lt_of_sub_lt {a b k : Nat} (hab : a < b) (h : b - a < k) :
    a % k ≠ b % k := by
  intro he
  have hd : k ∣ b - a := (Nat.modEq_iff_dvd' (Nat.le_of_lt hab)).mp he
  have : k ≤ b - a := Nat.le_of_dvd (by omega) hd
  omega

/-- The linearization invariant of a `PCQueue` of capacity `k`: after the
values `P` have been produced (in order) and the first `c` of them
consumed, the semaphore counters count pending items and free slots, the
cursors sit at `P.length` and `c` modulo `k`, and every pending value
`P[j]` (`c ≤ j < P.length`) sits in ring slot `j % k`. -/
structure PCInv {α : Type} (k : Nat) (P : List α) (c : Nat) (q : PCQueue α) : Prop where
  hk : 0 < k
  hlen : q.storage.length = k
  hc : c ≤ P.length
  hpend : P.length - c ≤ k
  hused : q.used = P.length - c
  hempty : q.empty = k - (P.length - c)
  hprod : q.produce_at = P.length % k
  hcons : q.consume_at = c % k
  hcontent : ∀ j, c ≤ j → j < P.length → q.storage[j % k]? = P[j]?

/-- The freshly constructed queue satisfies the invariant with no
produced and no consumed items. -/
theorem mkPCQueue_inv {α : Type} [Inhabited α] {k : Nat} (hk : 0 < k) :
    PCInv k ([] : List α) 0 (mkPCQueue α k) := by
  refine ⟨hk, ?_, ?_, ?_, ?_, ?_, ?_, ?_, ?_⟩ <;>
    simp [mkPCQueue]

/-- `Produce` blocks exactly when the `empty_` semaphore counter is zero,
whatever happens to the value transfer afterwards. -/
theorem ProduceAttempt_eq_none_iff {α : Type} [Inhabited α] (q : PCQueue α) (w : Option α) :
    q.ProduceAttempt w = none ↔ q.empty = 0 := by
  unfold PCQueue.ProduceAttempt
  by_cases h : q.empty = 0
  · simp [h]
  · cases w <;> simp [h]

/-- `Consume` blocks exactly when the `used_` semaphore counter is zero. -/
theorem ConsumeAttempt_eq_none_iff {α : Type} [Inhabited α] (q : PCQueue α) (f : Bool) :
    q.ConsumeAttempt f = none ↔ q.used = 0 := by
  unfold PCQueue.ConsumeAttempt
  by_cases h : q.used = 0
  · simp [h]
  · cases f <;> simp [h]

/-- Explicit result state of a non-blocked, non-throwing `Produce`. -/
theorem Produce_eq {α : Type} [Inhabited α] (q : PCQueue α) (v : α) (h : ¬ q.empty = 0) :
    q.Produce v = some
      { empty := q.empty - 1
        used := q.used + 1
        storage := q.storage.set q.produce_at v
        produce_at := if q.produce_at + 1 = q.storage.length then 0 else q.produce_at + 1
        consume_at := q.consume_at } := by
  simp [PCQueue.Produce, PCQueue.ProduceAttempt, h, List.length_set]

/-- Explicit result of a non-blocked, non-throwing `Consume`: the value
handed out is the slot under the consume cursor. -/
theorem Consume_eq {α : Type} [Inhabited α] (q : PCQueue α) (h : ¬ q.used = 0) :
    q.Consume = some (q.storage.getD q.consume_at default,
      { empty := q.empty + 1
        used := q.used - 1
        storage := q.storage
        produce_at := q.produce_at
        consume_at := if q.consume_at + 1 = q.storage.length then 0 else q.consume_at + 1 }) := by
  simp [PCQueue.Consume, PCQueue.ConsumeAttempt, h]

/-- A successful `Produce` extends the produced history and preserves the
invariant. -/
theorem Produce_inv {α : Type} [Inhabited α] {k : Nat} {P : List α} {c : Nat}
    {q q' : PCQueue α} {v : α} (hinv : PCInv k P c q)
    (h : q.Produce v = some q') : PCInv k (P ++ [v]) c q' := by
  obtain ⟨hk, hlen, hc, hpend, hused, hempty, hprod, hcons, hcontent⟩ := hinv
  have hne : ¬ q.empty = 0 := by
    intro h0
    rw [PCQueue.Produce, (ProduceAttempt_eq_none_iff q (some v)).mpr h0] at h
    exact Option.noConfusion h
  have hfull : P.length - c < k := by
    rw [hempty] at hne
    omega
  rw [Produce_eq q v hne] at h
  obtain rfl := Option.some_injective _ h
  refine ⟨hk, ?_, ?_, ?_, ?_, ?_, ?_, ?_, ?_⟩
  · simpa [List.length_set] using hlen
  · simp
    omega
  · simp
    omega
  · simp [hused]
    omega
  · simp [hempty]
    omega
  · simp [hprod, hlen, List.length_set, wrapinc_mod hk]
  · simpa using hcons
  · intro j hcj hjlen
    simp only [List.length_append, List.length_cons, List.length_nil] at hjlen
    rcases Nat.lt_or_ge j P.length with hj | hj
    · have hne2 : P.length % k ≠ j % k :=
        (mod_ne_of_lt_of_sub_lt hj (by omega)).symm
      rw [hprod, List.getElem?_set_ne hne2, List.getElem?_append_left hj]
      exact hcontent j hcj hj
    · have hj' : j = P.length := by omega
      subst hj'
      rw [hprod, List.getElem?_set_self (by rw [hlen]; exact Nat.mod_lt _ hk),
        List.getElem?_concat_length]

/-- A successful `Consume` returns the oldest pending value `P[c]` and
preserves the invariant with one more item consumed. -/
theorem Consume_inv {α : Type} [Inhabited α] {k : Nat} {P : List α} {c : Nat}
    {q q' : PCQueue α} {out : α} (hinv : PCInv k P c q)
    (h : q.Consume = some (out, q')) :
    PCInv k P (c + 1) q' ∧ c < P.length ∧ out = P.getD c default := by
  obtain ⟨hk, hlen, hc, hpend, hused, hempty, hprod, hcons, hcontent⟩ := hinv
  have hne : ¬ q.used = 0 := by
    intro h0
    rw [PCQueue.Consume, (ConsumeAttempt_eq_none_iff q false).mpr h0] at h
    exact Option.noConfusion h
  have hclt : c < P.length := by
    rw [hused] at hne
    omega
  rw [Consume_eq q hne] at h
  obtain ⟨rfl, rfl⟩ := Prod.mk.injEq .. ▸ Option.some_injective _ h
  refine ⟨⟨hk, hlen, by omega, by omega, by simp [hused]; omega,
    by simp [hempty]; omega, hprod, ?_, ?_⟩, hclt, ?_⟩
  · simp [hcons, hlen, wrapinc_mod hk]
  · intro j hcj hjlen
    exact hcontent j (by omega) hjlen
  · rw [hcons, List.getD_eq_getElem?_getD, hcontent c (Nat.le_refl c) hclt,
      List.getD_eq_getElem?_getD]

/-- Soundness of a linearized history: running it from an invariant state
yields an invariant state, and the consumed values are exactly the pending
segment of the produced history, in production order. -/
theorem runPC_sound {α : Type} [Inhabited α] {k : Nat} :
    ∀ (t : List (QOp α)) (P : List α) (c : Nat) (q qf : PCQueue α) (outs : List α),
    PCInv k P c q → runPC q t = some (qf, outs) →
    PCInv k (P ++ producedOf t) (c + numCons t) qf ∧
      outs = ((P ++ producedOf t).drop c).take (numCons t) := by
  intro t
  induction t with
  | nil =>
    intro P c q qf outs hinv h
    simp only [runPC, Option.some_injective, Option.some.injEq, Prod.mk.injEq] at h
    obtain ⟨rfl, rfl⟩ := h
    simpa [producedOf, numCons] using hinv
  | cons op rest ih =>
    intro P c q qf outs hinv h
    cases op with
    | prod v =>
      simp only [runPC] at h
      cases hq : q.Produce v with
      | none => rw [hq] at h; exact absurd h (by simp)
      | some q1 =>
        rw [hq] at h
        have hinv1 := Produce_inv hinv hq
        have := ih (P ++ [v]) c q1 qf outs hinv1 h
        simpa [producedOf, numCons, List.append_assoc] using this
    | cons =>
      simp only [runPC] at h
      cases hq : q.Consume with
      | none =>
        simp only [hq] at h
        exact Option.noConfusion h
      | some r =>
        obtain ⟨out, q1⟩ := r
        simp only [hq] at h
        cases hrest : runPC q1 rest with
        | none =>
          simp only [hrest] at h
          exact Option.noConfusion h
        | some rf =>
          obtain ⟨qf', outs'⟩ := rf
          simp only [hrest, Option.some.injEq, Prod.mk.injEq] at h
          obtain ⟨rfl, rfl⟩ := h
          obtain ⟨hinv1, hclt, hout⟩ := Consume_inv hinv hq
          obtain ⟨hinvf, houts⟩ := ih P (c + 1) q1 qf' outs' hinv1 hrest
          have hlenc : c < (P ++ producedOf rest).length := by
            simp only [List.length_append]
            omega
          refine ⟨by simpa [producedOf, numCons, Nat.add_assoc, Nat.add_comm 1] using hinvf, ?_⟩
          rw [houts, hout, producedOf, numCons,
            List.drop_eq_getElem_cons hlenc, List.take_succ_cons]
          congr 1
          have hPc : (P ++ producedOf rest)[c]? = P[c]? :=
            List.getElem?_append_left hclt
          have h2 : (P ++ producedOf rest)[c]? = some ((P ++ producedOf rest)[c]) :=
            List.getElem?_eq_getElem hlenc
          rw [List.getD_eq_getElem?_getD, ← hPc, h2]
          rfl

/-- A history consisting only of `Produce` calls produces exactly its
values. -/
theorem producedOf_map_prod {α : Type} (vs : List α) :
    producedOf (vs.map QOp.prod) = vs := by
  induction vs with
  | nil => rfl
  | cons v rest ih => simp [producedOf, ih]

/-- A history consisting only of `Produce` calls contains no `Consume`. -/
theorem numCons_map_prod {α : Type} (vs : List α) :
    numCons (vs.map QOp.prod) = 0 := by
  induction vs with
  | nil => rfl
  | cons v rest ih => simp [numCons, ih]

/-- C1: items are dequeued from a `PCQueue` in exactly the order they were
enqueued: for any linearized history of `Produce` calls of values
`v1..vn` interleaved with `Consume` calls in which no `Consume` overtakes
its matching `Produce` and no `Produce` overfills the capacity (that is,
the history runs to completion without blocking forever), the `i`-th
`Consume` returns `vi`. -/
theorem pcqueue_fifo {α : Type} [Inhabited α] {k : Nat} (hk : 0 < k)
    (t : List (QOp α)) (qf : PCQueue α) (outs : List α)
    (h : runPC (mkPCQueue α k) t = some (qf, outs)) :
    outs = (producedOf t).take (numCons t) := by
  have := (runPC_sound t [] 0 (mkPCQueue α k) qf outs (mkPCQueue_inv hk) h).2
  simpa using this

/-- C1 witness: capacity 2, producing 1,2,3 with interleaved consumes
yields the consumed sequence 1,2,3. -/
theorem pcqueue_fifo_witness :
    ([1, 2, 3] : List Nat) =
      (producedOf [QOp.prod 1, QOp.prod 2, QOp.cons, QOp.prod 3, QOp.cons, QOp.cons]).take
        (numCons [QOp.prod 1, QOp.prod 2, QOp.cons, QOp.prod 3, QOp.cons, QOp.cons]) :=
  @pcqueue_fifo Nat _ 2 (by decide)
    [QOp.prod 1, QOp.prod 2, QOp.cons, QOp.prod 3, QOp.cons, QOp.cons]
    ⟨2, 0, [3, 2], 1, 1⟩ [1, 2, 3] (by decide)

/-- C2: for every `PCQueue` operation, if the value assignment or swap
throws, the semaphore decremented just before it is reposted, the cursor
is not advanced, and the opposite semaphore is not posted: the resulting
state is exactly the state before the call (so later calls behave as if
the failed call never happened). -/
theorem pcqueue_rollback {α : Type} [Inhabited α] (q : PCQueue α) (v out : α) :
    (q.empty ≠ 0 → q.ProduceAttempt none = some (.error q)) ∧
    (q.empty ≠ 0 → q.ProduceSwapAttempt v true = some (.error q)) ∧
    (q.used ≠ 0 → q.ConsumeAttempt true = some (.error q)) ∧
    (q.used ≠ 0 → q.ConsumeSwapAttempt out true = some (.error q)) := by
  obtain ⟨e, u, s, p, c⟩ := q
  refine ⟨?_, ?_, ?_, ?_⟩ <;> intro h <;>
    simp_all [PCQueue.ProduceAttempt, PCQueue.ProduceSwapAttempt,
      PCQueue.ConsumeAttempt, PCQueue.ConsumeSwapAttempt] <;> omega

/-- C2 witness: on the state with one free slot and one pending item, all
four failing operations return the rollback of that very state. -/
theorem pcqueue_rollback_witness :
    (PCQueue.ProduceAttempt (⟨1, 1, [5, 6], 0, 1⟩ : PCQueue Nat) none =
      some (.error ⟨1, 1, [5, 6], 0, 1⟩)) ∧
    (PCQueue.ProduceSwapAttempt (⟨1, 1, [5, 6], 0, 1⟩ : PCQueue Nat) 7 true =
      some (.error ⟨1, 1, [5, 6], 0, 1⟩)) ∧
    (PCQueue.ConsumeAttempt (⟨1, 1, [5, 6], 0, 1⟩ : PCQueue Nat) true =
      some (.error ⟨1, 1, [5, 6], 0, 1⟩)) ∧
    (PCQueue.ConsumeSwapAttempt (⟨1, 1, [5, 6], 0, 1⟩ : PCQueue Nat) 8 true =
      some (.error ⟨1, 1, [5, 6], 0, 1⟩)) :=
  ⟨(pcqueue_rollback ⟨1, 1, [5, 6], 0, 1⟩ 7 8).1 (by decide),
   (pcqueue_rollback ⟨1, 1, [5, 6], 0, 1⟩ 7 8).2.1 (by decide),
   (pcqueue_rollback ⟨1, 1, [5, 6], 0, 1⟩ 7 8).2.2.1 (by decide),
   (pcqueue_rollback ⟨1, 1, [5, 6], 0, 1⟩ 7 8).2.2.2 (by decide)⟩

/-- C3: after `k` produces into a fresh queue of capacity `k` with no
consume, any further `Produce` finds the `empty_` counter at zero and
blocks, whatever value it would transfer; one `Consume` then releases
exactly one pending producer: a single `Produce` succeeds, after which
producing blocks again. -/
theorem pcqueue_backpressure {α : Type} [Inhabited α] {k : Nat} (hk : 0 < k)
    (vs : List α) (hlen : vs.length = k) (q : PCQueue α) (outs : List α)
    (h : runPC (mkPCQueue α k) (vs.map QOp.prod) = some (q, outs)) :
    (∀ w, q.ProduceAttempt w = none) ∧
    (∀ out q', q.Consume = some (out, q') →
      ∀ v : α, ∃ q'', q'.Produce v = some q'' ∧ ∀ w, q''.ProduceAttempt w = none) := by
  have hinv : PCInv k vs 0 q := by
    have := (runPC_sound (vs.map QOp.prod) [] 0 (mkPCQueue α k) q outs
      (mkPCQueue_inv hk) h).1
    simpa [producedOf_map_prod, numCons_map_prod] using this
  have hempty0 : q.empty = 0 := by
    rw [hinv.hempty, hlen]
    omega
  refine ⟨fun w => (ProduceAttempt_eq_none_iff q w).mpr hempty0, ?_⟩
  intro out q' hc v
  obtain ⟨hinv', _, _⟩ := Consume_inv hinv hc
  have hone : q'.empty = 1 := by
    rw [hinv'.hempty, hlen]
    omega
  refine ⟨_, Produce_eq q' v (by omega), fun w => (ProduceAttempt_eq_none_iff _ w).mpr ?_⟩
  simp [hone]

/-- C3 witness: capacity 1; after producing one value the queue is full
and blocked, one consume lets exactly one further produce through. -/
theorem pcqueue_backpressure_witness :
    (∀ w, PCQueue.ProduceAttempt (⟨0, 1, [4], 0, 0⟩ : PCQueue Nat) w = none) ∧
    (∀ out q', PCQueue.Consume (⟨0, 1, [4], 0, 0⟩ : PCQueue Nat) = some (out, q') →
      ∀ v : Nat, ∃ q'', q'.Produce v = some q'' ∧ ∀ w, q''.ProduceAttempt w = none) :=
  @pcqueue_backpressure Nat _ 1 (by decide) [4] (by decide) ⟨0, 1, [4], 0, 0⟩ [] (by decide)

/-- A buffer of default-constructed slots reads back the default value
at every position. -/
theorem getD_replicate_self {α : Type} (n i : Nat) (d : α) :
    (List.replicate n d).getD i d = d := by
  induction n generalizing i with
  | zero => rfl
  | succ m ih =>
    cases i with
    | zero => rfl
    | succ j => exact ih j

/-- C4: `ProduceSwap` on a freshly constructed queue hands back a
default-constructed value (fresh slots are default-constructed), and
`ConsumeSwap` leaves the just-vacated slot holding the value the caller's
`out` contained before the call. -/
theorem pcqueue_swap_semantics {α : Type} [Inhabited α] (k : Nat) (v : α)
    (q : PCQueue α) (out : α) :
    (k ≠ 0 → ((mkPCQueue α k).ProduceSwapAttempt v false).isSome = true) ∧
    (∀ got q', (mkPCQueue α k).ProduceSwapAttempt v false = some (.ok (got, q')) →
      got = default) ∧
    (q.used ≠ 0 → q.consume_at < q.storage.length →
      ∀ got q', q.ConsumeSwapAttempt out false = some (.ok (got, q')) →
        q'.storage[q.consume_at]? = some out) := by
  refine ⟨?_, ?_, ?_⟩
  · intro hk
    simp [PCQueue.ProduceSwapAttempt, mkPCQueue, hk]
  · intro got q' h
    by_cases hk : k = 0
    · simp [PCQueue.ProduceSwapAttempt, mkPCQueue, hk] at h
    · simp only [PCQueue.ProduceSwapAttempt, mkPCQueue, hk, if_neg, if_false,
        Bool.false_eq_true, Option.some.injEq, Except.ok.injEq, Prod.mk.injEq] at h
      rw [← h.1, getD_replicate_self]
  · intro hu hlt got q' h
    simp only [PCQueue.ConsumeSwapAttempt, hu, if_neg, if_false, Bool.false_eq_true,
      Option.some.injEq, Except.ok.injEq, Prod.mk.injEq] at h
    obtain ⟨-, rfl⟩ := h
    exact List.getElem?_set_self hlt

/-- C4 witness: on a fresh queue of capacity 2 the produce-swap returns
the default value 0; consume-swapping 9 into a queue holding 5 leaves 9
in the vacated slot. -/
theorem pcqueue_swap_semantics_witness :
    ((mkPCQueue Nat 2).ProduceSwapAttempt 7 false).isSome = true ∧
    (0 : Nat) = default ∧
    (⟨2, 0, [9, 6], 0, 1⟩ : PCQueue Nat).storage[0]? = some 9 :=
  ⟨(pcqueue_swap_semantics 2 7 (⟨1, 1, [5, 6], 0, 0⟩ : PCQueue Nat) 9).1 (by decide),
   (pcqueue_swap_semantics 2 7 (⟨1, 1, [5, 6], 0, 0⟩ : PCQueue Nat) 9).2.1 0
     ⟨1, 1, (List.replicate 2 (0 : Nat)).set 0 7, 1, 0⟩ rfl,
   (pcqueue_swap_semantics 2 7 (⟨1, 1, [5, 6], 0, 0⟩ : PCQueue Nat) 9).2.2
     (by decide) (by decide) 5 ⟨2, 0, [9, 6], 0, 1⟩ rfl⟩

/-- Outcome of running `Semaphore::~Semaphore`. -/
inductive TeardownOutcome where
  | ok
  | abortedAfterLog
  | abortedByTerminate
  | raisedOut
deriving DecidableEq, Repr

/-- The linux `Semaphore::~Semaphore` (pcqueue.hh lines 67-72): when
`sem_destroy` returns `-1` the destructor writes the errno message to
`std::cerr` and calls `abort()`; otherwise it returns normally. There is
no path that throws. -/
def semDestroyLinux (destroyFails : Bool) : TeardownOutcome :=
  if destroyFails then .abortedAfterLog else .ok

/-- Body of the Apple `Semaphore::~Semaphore` (lines 38-40):
`MACH_CALL(semaphore_destroy(...))` throws an `Exception` when the mach
call does not return `KERN_SUCCESS`. -/
def semDestroyAppleBody (destroyFails : Bool) : Except Unit Unit :=
  if destroyFails then .error () else .ok ()

/-- The Apple destructor as observed by the caller: a C++ destructor is
implicitly `noexcept`, so an exception escaping the body reaches no
caller; the runtime terminates the process instead. -/
def semDestroyApple (destroyFails : Bool) : TeardownOutcome :=
  match semDestroyAppleBody destroyFails with
  | .ok () => .ok
  | .error () => .abortedByTerminate

/-- C6: if destroying the semaphore's OS resource fails, the failure is
logged and the process aborts (linux variant: message on `cerr`, then
`abort()`); on neither platform does teardown report the failure by
raising an error out of the destructor. -/
theorem semaphore_teardown_aborts :
    semDestroyLinux true = .abortedAfterLog ∧
    semDestroyLinux false = .ok ∧
    (∀ b, semDestroyLinux b ≠ .raisedOut) ∧
    (∀ b, semDestroyApple b ≠ .raisedOut) := by
  refine ⟨rfl, rfl, ?_, ?_⟩ <;> intro b <;> cases b <;> decide

/-- C6 witness: a failing destroy on either platform ends in an abort,
not a raised error. -/
theorem semaphore_teardown_aborts_witness :
    semDestroyLinux true = .abortedAfterLog ∧
    semDestroyLinux true ≠ .raisedOut ∧
    semDestroyApple true ≠ .raisedOut :=
  ⟨semaphore_teardown_aborts.1,
   semaphore_teardown_aborts.2.2.1 true,
   semaphore_teardown_aborts.2.2.2 true⟩

/-- Result of one underlying `sem_wait` call: success, interruption by a
signal (`-1` with `errno == EINTR`), or any other failure (`-1` with a
different errno). -/
inductive SemWaitCall where
  | ok
  | eintr
  | fail
deriving DecidableEq, Repr

/-- The linux `Semaphore::wait` (lines 74-78), driven by the sequence of
outcomes the successive `sem_wait` calls will return:
`while (-1 == sem_wait(&sem_)) UTIL_THROW_IF(errno != EINTR, ...)`.
`some (.ok ())` is a normal return (after a successful decrement),
`some (.error ())` is a thrown `ErrnoException`, and `none` means the
sequence ran out while the thread is still blocked inside `sem_wait`. -/
def semWaitLoop : List SemWaitCall → Option (Except Unit Unit)
  | [] => none
  | .ok :: _ => some (.ok ())
  | .eintr :: rest => semWaitLoop rest
  | .fail :: _ => some (.error ())

/-- C7: `Semaphore::wait` retries internally through any number of
`EINTR` interruptions and returns normally exactly when an underlying
call finally succeeds; the first non-`EINTR` failure raises an error to
the caller immediately, with no retry. -/
theorem semaphore_wait_retries_eintr :
    (∀ n, semWaitLoop (List.replicate n .eintr ++ [.ok]) = some (.ok ())) ∧
    (∀ n, semWaitLoop (List.replicate n .eintr ++ [.fail]) = some (.error ())) ∧
    (∀ rest, semWaitLoop (.fail :: rest) = some (.error ())) ∧
    (∀ l, semWaitLoop l = some (.ok ()) → .ok ∈ l) := by
  have hok : ∀ n, semWaitLoop (List.replicate n .eintr ++ [.ok]) = some (.ok ()) := by
    intro n
    induction n with
    | zero => rfl
    | succ m ih => simpa [List.replicate_succ, semWaitLoop] using ih
  have hfail : ∀ n, semWaitLoop (List.replicate n .eintr ++ [.fail]) = some (.error ()) := by
    intro n
    induction n with
    | zero => rfl
    | succ m ih => simpa [List.replicate_succ, semWaitLoop] using ih
  refine ⟨hok, hfail, fun rest => rfl, ?_⟩
  intro l
  induction l with
  | nil => intro h; exact Option.noConfusion h
  | cons c rest ih =>
    intro h
    cases c with
    | ok => exact List.mem_cons_self _ _
    | eintr => exact List.mem_cons_of_mem _ (ih h)
    | fail =>
      simp only [semWaitLoop, Option.some.injEq] at h
      exact Except.noConfusion h

/-- C7 witness: two interruptions then success returns normally; an
immediate other failure raises; a successful run contains a successful
call. -/
theorem semaphore_wait_retries_eintr_witness :
    semWaitLoop [.eintr, .eintr, .ok] = some (.ok ()) ∧
    semWaitLoop [.fail, .eintr] = some (.error ()) ∧
    SemWaitCall.ok ∈ [SemWaitCall.eintr, SemWaitCall.ok] :=
  ⟨semaphore_wait_retries_eintr.1 2,
   semaphore_wait_retries_eintr.2.2.1 [.eintr],
   semaphore_wait_retries_eintr.2.2.2 [.eintr, .ok] rfl⟩

/-- The semaphore-visible accounting state of a `PCQueue` of capacity
`k`, at the granularity of the individual semaphore operations inside
`Produce`/`ProduceSwap`/`Consume`/`ConsumeSwap`: `empty`/`used` are the
two counters, and `inflight_produce`/`inflight_consume` count the calls
that have passed their `WaitSemaphore` (reserving a slot) but have not
yet posted the opposite semaphore or rolled back. -/
structure SlotCounts where
  empty : Nat
  used : Nat
  inflight_produce : Nat
  inflight_consume : Nat
deriving DecidableEq, Repr

/-- The accounting state right after `PCQueue(size)` (lines 120-125):
`empty_(size)`, `used_(0)`, no call in flight. -/
def initSlotCounts (k : Nat) : SlotCounts :=
  { empty := k, used := 0, inflight_produce := 0, inflight_consume := 0 }

/-- One semaphore operation inside a `PCQueue` call:
`reserveProduce` is `WaitSemaphore(empty_)` at the head of a produce;
`commitProduce` is the `used_.post()` at its end;
`abortProduce` is the `empty_.post()` in its catch block; and
symmetrically for consume (lines 128-192). -/
inductive SlotStep where
  | reserveProduce
  | commitProduce
  | abortProduce
  | reserveConsume
  | commitConsume
  | abortConsume
deriving DecidableEq, Repr

/-- Effect of one semaphore operation on the accounting state. A reserve
on a zero counter blocks (`none`); a commit or abort without a matching
in-flight call cannot occur in any real schedule and is rejected. -/
def slotStep (s : SlotCounts) : SlotStep → Option SlotCounts
  | .reserveProduce =>
    if s.empty = 0 then none
    else some { s with empty := s.empty - 1, inflight_produce := s.inflight_produce + 1 }
  | .commitProduce =>
    if s.inflight_produce = 0 then none
    else some { s with inflight_produce := s.inflight_produce - 1, used := s.used + 1 }
  | .abortProduce =>
    if s.inflight_produce = 0 then none
    else some { s with inflight_produce := s.inflight_produce - 1, empty := s.empty + 1 }
  | .reserveConsume =>
    if s.used = 0 then none
    else some { s with used := s.used - 1, inflight_consume := s.inflight_consume + 1 }
  | .commitConsume =>
    if s.inflight_consume = 0 then none
    else some { s with inflight_consume := s.inflight_consume - 1, empty := s.empty + 1 }
  | .abortConsume =>
    if s.inflight_consume = 0 then none
    else some { s with inflight_consume := s.inflight_consume - 1, used := s.used + 1 }

/-- Run a schedule of semaphore operations. -/
def runSlotCounts (s : SlotCounts) : List SlotStep → Option SlotCounts
  | [] => some s
  | step :: rest =>
    match slotStep s step with
    | none => none
    | some s' => runSlotCounts s' rest

/-- C8: a `PCQueue` of capacity `k` starts with the free-slots semaphore
at `k` and the filled-slots semaphore at `0`, and every interleaving of
the semaphore operations of `Produce`/`Consume` calls (complete or rolled
back) preserves `empty + used + in-flight = k`. -/
theorem pcqueue_capacity_accounting (k : Nat) :
    (initSlotCounts k).empty = k ∧ (initSlotCounts k).used = 0 ∧
    ∀ steps s, runSlotCounts (initSlotCounts k) steps = some s →
      s.empty + s.used + s.inflight_produce + s.inflight_consume = k := by
  refine ⟨rfl, rfl, ?_⟩
  suffices h : ∀ steps (s0 s : SlotCounts),
      s0.empty + s0.used + s0.inflight_produce + s0.inflight_consume = k →
      runSlotCounts s0 steps = some s →
      s.empty + s.used + s.inflight_produce + s.inflight_consume = k by
    intro steps s hrun
    exact h steps (initSlotCounts k) s (by simp [initSlotCounts]) hrun
  intro steps
  induction steps with
  | nil =>
    intro s0 s h0 hrun
    simp only [runSlotCounts, Option.some.injEq] at hrun
    obtain rfl := hrun
    exact h0
  | cons step rest ih =>
    intro s0 s h0 hrun
    simp only [runSlotCounts] at hrun
    cases hs : slotStep s0 step with
    | none =>
      simp only [hs] at hrun
      exact Option.noConfusion hrun
    | some s1 =>
      simp only [hs] at hrun
      refine ih s1 s ?_ hrun
      cases step <;>
        simp only [slotStep] at hs <;>
        split at hs <;>
        first
          | exact Option.noConfusion hs
          | (obtain rfl := Option.some_injective _ hs; simp; omega)

/-- C8 witness: capacity 2, a full produce, an aborted produce, and a
full consume interleaved, ending with the counters summing to 2. -/
theorem pcqueue_capacity_accounting_witness :
    SlotCounts.empty
        { empty := 1, used := 0, inflight_produce := 0, inflight_consume := 1 } +
      SlotCounts.used
        { empty := 1, used := 0, inflight_produce := 0, inflight_consume := 1 } +
      SlotCounts.inflight_produce
        { empty := 1, used := 0, inflight_produce := 0, inflight_consume := 1 } +
      SlotCounts.inflight_consume
        { empty := 1, used := 0, inflight_produce := 0, inflight_consume := 1 } = 2 :=
  (pcqueue_capacity_accounting 2).2.2
    [.reserveProduce, .reserveProduce, .abortProduce, .commitProduce, .reserveConsume]
    { empty := 1, used := 0, inflight_produce := 0, inflight_consume := 1 } (by decide)

/-- Number of entries of an `UnboundedPage<T>` (pcqueue.hh line 225):
`T entries[1023]`, so `sizeof(to->entries) / sizeof(T) = 1023`. -/
def pageSize : Nat := 1023

/-- A freshly allocated `UnboundedPage<T>`: `entries` default-constructed. -/
def freshPage (α : Type) [Inhabited α] : List α :=
  List.replicate pageSize default

/-- Replace the last element of a list by its image (the in-place write
to the filling page, which is the last page of the live chain). -/
def modifyLast {β : Type} (f : β → β) : List β → List β
  | [] => []
  | [p] => [f p]
  | p :: q :: rest => p :: modifyLast f (q :: rest)

/-- State of `util::UnboundedSingleQueue<T>` (lines 228-279): `valid` is
the `valid_` semaphore counter; `chain` is the live page chain from the
reading page (owned by `reading_`) through the linked intermediate pages
to the filling page (`filling_`, the last element); `filling_cur` and
`reading_cur` are the offsets `filling_current_ - filling_->entries` and
`reading_current_ - reading_->entries` (their page ends `filling_end_` /
`reading_end_` correspond to offset `pageSize`). -/
structure UnboundedSingleQueue (α : Type) where
  valid : Nat
  chain : List (List α)
  filling_cur : Nat
  reading_cur : Nat
deriving DecidableEq, Repr

/-- The constructor (lines 230-233): `valid_(0)`, one fresh page that is
both the filling and the reading page, both cursors at its start
(`SetFilling(new UnboundedPage<T>()); SetReading(filling_)`). -/
def mkUnboundedSingleQueue (α : Type) [Inhabited α] : UnboundedSingleQueue α :=
  { valid := 0
    chain := [freshPage α]
    filling_cur := 0
    reading_cur := 0 }

namespace UnboundedSingleQueue

variable {α : Type} [Inhabited α]

/-- `UnboundedSingleQueue::Produce` (lines 235-243): if the filling
cursor has reached the page end, allocate a fresh page, link it behind
the filling page and make it the filling page (`SetFilling(next)`); then
write the value at the cursor, advance it, and post `valid_`. There is no
semaphore wait: this function always completes. -/
def Produce (q : UnboundedSingleQueue α) (v : α) : UnboundedSingleQueue α :=
  let q1 : UnboundedSingleQueue α :=
    if q.filling_cur = pageSize then
      { q with chain := q.chain ++ [freshPage α], filling_cur := 0 }
    else q
  { q1 with
    chain := modifyLast (fun p => p.set q1.filling_cur v) q1.chain
    filling_cur := q1.filling_cur + 1
    valid := q1.valid + 1 }

/-- `UnboundedSingleQueue::Consume` (lines 245-252): wait on `valid_`
(`none` when the counter is zero and the call blocks); if the reading
cursor has reached the page end, advance to the next page in the chain —
`SetReading(reading_->next)` frees the drained page, which dropping the
chain's head renders; read the entry at the cursor and advance it. The
inner `none` corresponds to `reading_->next` being null, which a
single-consumer schedule never reaches (see the invariant below). -/
def Consume (q : UnboundedSingleQueue α) : Option (α × UnboundedSingleQueue α) :=
  if q.valid = 0 then none
  else
    let q1 : UnboundedSingleQueue α := { q with valid := q.valid - 1 }
    let q2 : UnboundedSingleQueue α :=
      if q1.reading_cur = pageSize then
        { q1 with chain := q1.chain.tail, reading_cur := 0 }
      else q1
    match q2.chain with
    | [] => none
    | p :: _ => some (p.getD q2.reading_cur default, { q2 with reading_cur := q2.reading_cur + 1 })

/-- Repeated `Produce` of a list of values, oldest first. -/
def produceAll (q : UnboundedSingleQueue α) : List α → UnboundedSingleQueue α
  | [] => q
  | v :: rest => (q.Produce v).produceAll rest

end UnboundedSingleQueue

/-- Run a linearized sequence of `UnboundedSingleQueue` calls. `none`
when a `Consume` blocks forever; collects consumed values in order. -/
def runUSQ {α : Type} [Inhabited α] (q : UnboundedSingleQueue α) :
    List (QOp α) → Option (UnboundedSingleQueue α × List α)
  | [] => some (q, [])
  | .prod v :: rest => runUSQ (q.Produce v) rest
  | .cons :: rest =>
    match q.Consume with
    | none => none
    | some (out, q') =>
      match runUSQ q' rest with
      | none => none
      | some (qf, outs) => some (qf, out :: outs)

/-- Writing into the last page does not change the number of pages. -/
theorem modifyLast_length {β : Type} (f : β → β) :
    ∀ l : List β, (modifyLast f l).length = l.length
  | [] => rfl
  | [_] => rfl
  | p :: q :: rest => by
    simp only [modifyLast, List.length_cons]
    exact congrArg (· + 1) (modifyLast_length f (q :: rest))

/-- Writing into the last page with a length-preserving function keeps
every page at its length. -/
theorem modifyLast_pages {α : Type} (f : List α → List α) (n : Nat)
    (hf : ∀ p, (f p).length = p.length) :
    ∀ l : List (List α), (∀ p ∈ l, p.length = n) →
      ∀ p ∈ modifyLast f l, p.length = n
  | [] => by
    intro _ p hp
    cases hp
  | [q] => by
    intro h p hp
    simp only [modifyLast, List.mem_singleton] at hp
    subst hp
    rw [hf]
    exact h q (List.mem_singleton_self q)
  | q :: r :: rest => by
    intro h p hp
    simp only [modifyLast, List.mem_cons] at hp
    rcases hp with rfl | hp
    · exact h p (List.mem_cons_self _ _)
    · exact modifyLast_pages f n hf (r :: rest)
        (fun s hs => h s (List.mem_cons_of_mem _ hs)) p (by simpa using hp)

/-- A chain of pages of uniform length flattens to a buffer of
predictable length. -/
theorem flatten_pages_length {α : Type} (n : Nat) :
    ∀ l : List (List α), (∀ p ∈ l, p.length = n) →
      l.flatten.length = l.length * n
  | [] => by
    intro _
    simp
  | p :: rest => by
    intro h
    simp only [List.flatten_cons, List.length_append, List.length_cons]
    rw [h p (List.mem_cons_self _ _),
      flatten_pages_length n rest (fun q hq => h q (List.mem_cons_of_mem _ hq))]
    ring

/-- Writing value `v` at offset `i` of the last page of a uniform chain
is, on the flattened buffer, a write at the absolute position of that
slot. -/
theorem flatten_modifyLast_set {α : Type} (n : Nat) (v : α) :
    ∀ l : List (List α), l ≠ [] → (∀ p ∈ l, p.length = n) → ∀ i : Nat,
      (modifyLast (fun p => p.set i v) l).flatten =
        l.flatten.set ((l.length - 1) * n + i) v
  | [], h, _, _ => absurd rfl h
  | [p], _, _, i => by
    simp [modifyLast]
  | p :: q :: rest, _, hp, i => by
    have hrec := flatten_modifyLast_set n v (q :: rest) (by simp)
      (fun r hr => hp r (List.mem_cons_of_mem _ hr)) i
    have hplen : p.length = n := hp p (List.mem_cons_self _ _)
    have hidx : ((p :: q :: rest).length - 1) * n + i =
        p.length + (((q :: rest).length - 1) * n + i) := by
      simp only [List.length_cons, hplen, Nat.add_sub_cancel, Nat.succ_mul]
      ring
    calc (modifyLast (fun p => p.set i v) (p :: q :: rest)).flatten
        = p ++ (modifyLast (fun p => p.set i v) (q :: rest)).flatten := by
          simp [modifyLast]
      _ = p ++ (q :: rest).flatten.set (((q :: rest).length - 1) * n + i) v := by
          rw [hrec]
      _ = (p ++ (q :: rest).flatten).set (((p :: q :: rest).length - 1) * n + i) v := by
          rw [hidx, List.set_append_right _ _ (Nat.le_add_right _ _), Nat.add_sub_cancel_left]
      _ = (p :: q :: rest).flatten.set (((p :: q :: rest).length - 1) * n + i) v := by
          simp [List.flatten_cons]

/-- The linearization invariant of an `UnboundedSingleQueue`: after the
values `P` have been produced and the first `c` of them consumed, the
live chain is nonempty with uniform `pageSize`-length pages, the `valid_`
counter counts the pending items, the absolute write position (end of
the written prefix) sits `P.length - c` slots past the absolute read
position `reading_cur`, and every pending value `P[j]` is found in the
flattened live chain at read offset `j - c`. -/
structure USQInv {α : Type} (P : List α) (c : Nat) (q : UnboundedSingleQueue α) : Prop where
  hch : q.chain ≠ []
  hpages : ∀ p ∈ q.chain, p.length = pageSize
  hrc : q.reading_cur ≤ pageSize
  hfc : q.filling_cur ≤ pageSize
  hc : c ≤ P.length
  hvalid : q.valid = P.length - c
  hw : (q.chain.length - 1) * pageSize + q.filling_cur = q.reading_cur + (P.length - c)
  hcontent : ∀ j, c ≤ j → j < P.length →
    q.chain.flatten[q.reading_cur + (j - c)]? = P[j]?

/-- The freshly constructed queue satisfies the invariant with an empty
history. -/
theorem mkUSQ_inv {α : Type} [Inhabited α] :
    USQInv ([] : List α) 0 (mkUnboundedSingleQueue α) := by
  refine ⟨by simp [mkUnboundedSingleQueue], ?_, ?_, ?_, ?_, ?_, ?_, ?_⟩
  · intro p hp
    simp only [mkUnboundedSingleQueue, List.mem_singleton] at hp
    subst hp
    simp [freshPage]
  · exact Nat.zero_le _
  · exact Nat.zero_le _
  · exact Nat.le_refl _
  · rfl
  · simp [mkUnboundedSingleQueue]
  · intro j _ hj
    simp only [List.length_nil] at hj
    exact absurd hj (Nat.not_lt_zero j)

/-- An `UnboundedSingleQueue::Produce` appends its value to the produced
history and preserves the invariant (allocating and linking a fresh page
exactly when the filling page is full). -/
theorem USQ_Produce_inv {α : Type} [Inhabited α] {P : List α} {c : Nat}
    {q : UnboundedSingleQueue α} (v : α) (hinv : USQInv P c q) :
    USQInv (P ++ [v]) c (q.Produce v) := by
  obtain ⟨hch, hpages, hrc, hfc, hc, hvalid, hw, hcontent⟩ := hinv
  obtain ⟨ch1, f1, hq1, hch1, hpages1, hf1, hw1, hkeep⟩ :
      ∃ (ch1 : List (List α)) (f1 : Nat),
        q.Produce v = { valid := q.valid + 1
                        chain := modifyLast (fun p => p.set f1 v) ch1
                        filling_cur := f1 + 1
                        reading_cur := q.reading_cur } ∧
        ch1 ≠ [] ∧ (∀ p ∈ ch1, p.length = pageSize) ∧ f1 < pageSize ∧
        (ch1.length - 1) * pageSize + f1 = q.reading_cur + (P.length - c) ∧
        (∀ x, x < q.reading_cur + (P.length - c) →
          ch1.flatten[x]? = q.chain.flatten[x]?) := by
    by_cases hfull : q.filling_cur = pageSize
    · have hlen : 0 < q.chain.length := List.length_pos.mpr hch
      rw [hfull] at hw
      refine ⟨q.chain ++ [freshPage α], 0, ?_, by simp, ?_, ?_, ?_, ?_⟩
      · simp [UnboundedSingleQueue.Produce, hfull]
      · intro p hp
        rcases List.mem_append.mp hp with hp | hp
        · exact hpages p hp
        · simp only [List.mem_singleton] at hp
          subst hp
          simp [freshPage]
      · simp [pageSize]
      · rw [List.length_append]
        simp only [List.length_singleton]
        simp only [pageSize] at hw ⊢
        omega
      · intro x hx
        have hflat : q.chain.flatten.length = q.chain.length * pageSize :=
          flatten_pages_length _ _ hpages
        have hxlt : x < q.chain.flatten.length := by
          rw [hflat]
          simp only [pageSize] at hw ⊢
          omega
        rw [List.flatten_append]
        exact List.getElem?_append_left hxlt
    · exact ⟨q.chain, q.filling_cur, by simp [UnboundedSingleQueue.Produce, hfull],
        hch, hpages, by omega, hw, fun x _ => rfl⟩
  rw [hq1]
  have hlen1 : 0 < ch1.length := List.length_pos.mpr hch1
  have hflat1 : ch1.flatten.length = ch1.length * pageSize :=
    flatten_pages_length _ _ hpages1
  have hmul : (ch1.length - 1) * pageSize + pageSize = ch1.length * pageSize := by
    conv_rhs => rw [← Nat.succ_pred_eq_of_pos hlen1]
    rw [Nat.succ_mul]
    rfl
  have hset : (modifyLast (fun p => p.set f1 v) ch1).flatten =
      ch1.flatten.set (q.reading_cur + (P.length - c)) v := by
    rw [flatten_modifyLast_set pageSize v ch1 hch1 hpages1 f1, hw1]
  have hwlt : q.reading_cur + (P.length - c) < ch1.flatten.length := by
    rw [hflat1, ← hmul]
    omega
  refine ⟨?_, ?_, ?_, ?_, ?_, ?_, ?_, ?_⟩ <;> dsimp only
  · intro hnil
    have hml := modifyLast_length (fun p => p.set f1 v) ch1
    rw [hnil] at hml
    simp only [List.length_nil] at hml
    omega
  · exact modifyLast_pages _ pageSize (fun p => List.length_set p f1 v) ch1 hpages1
  · exact hrc
  · omega
  · simp only [List.length_append, List.length_singleton]
    omega
  · simp only [List.length_append, List.length_singleton]
    rw [hvalid]
    omega
  · rw [modifyLast_length]
    simp only [List.length_append, List.length_singleton]
    simp only [pageSize] at hw1 ⊢
    omega
  · intro j hcj hjlen
    simp only [List.length_append, List.length_singleton] at hjlen
    rw [hset]
    rcases Nat.lt_or_ge j P.length with hj | hj
    · rw [List.getElem?_set_ne (by omega),
        hkeep (q.reading_cur + (j - c)) (by omega),
        List.getElem?_append_left hj]
      exact hcontent j hcj hj
    · have hj' : j = P.length := by omega
      subst hj'
      rw [List.getElem?_set_self hwlt, List.getElem?_concat_length]

/-- When a pending item exists, `Consume` does not block: it returns the
oldest pending value `P[c]` and preserves the invariant, advancing to
(and freeing) the next page exactly when the reading page is drained. -/
theorem USQ_Consume_inv {α : Type} [Inhabited α] {P : List α} {c : Nat}
    {q : UnboundedSingleQueue α} (hinv : USQInv P c q) (hclt : c < P.length) :
    ∃ q', q.Consume = some (P.getD c default, q') ∧ USQInv P (c + 1) q' := by
  obtain ⟨hch, hpages, hrc, hfc, hc, hvalid, hw, hcontent⟩ := hinv
  obtain ⟨val, ch, fc, rc⟩ := q
  dsimp only at hch hpages hrc hfc hvalid hw hcontent
  have hv : ¬ val = 0 := by omega
  by_cases hbr : rc = pageSize
  · subst hbr
    have hlen2 : 2 ≤ ch.length := by
      simp only [pageSize] at hw hfc ⊢
      omega
    cases ch with
    | nil => simp at hlen2
    | cons p0 ch' =>
      cases ch' with
      | nil => simp at hlen2
      | cons p1 rest =>
        have hp0 : p0.length = pageSize := hpages p0 (List.mem_cons_self _ _)
        have hp1 : p1.length = pageSize := hpages p1 (by simp)
        have hcc := hcontent c (Nat.le_refl c) hclt
        rw [Nat.sub_self, Nat.add_zero, List.flatten_cons,
          List.getElem?_append_right (by omega), hp0, Nat.sub_self] at hcc
        have h01 : (p1 :: rest).flatten[0]? = p1[0]? := by
          rw [List.flatten_cons]
          exact List.getElem?_append_left (by rw [hp1]; simp [pageSize])
        have hgot : p1.getD 0 default = P.getD c default := by
          rw [List.getD_eq_getElem?_getD, List.getD_eq_getElem?_getD, ← hcc, h01]
        refine ⟨⟨val - 1, p1 :: rest, fc, 1⟩, ?_, ?_⟩
        · rw [← hgot]
          simp [UnboundedSingleQueue.Consume, hv]
        · refine ⟨by simp, ?_, ?_, hfc, by omega, by dsimp only; omega, ?_, ?_⟩
          · exact fun p hp => hpages p (List.mem_cons_of_mem _ hp)
          · simp [pageSize]
          · dsimp only
            simp only [List.length_cons] at hw ⊢
            simp only [pageSize] at hw ⊢
            omega
          · intro j hcj hjl
            dsimp only
            have hidx : 1 + (j - (c + 1)) = j - c := by omega
            rw [hidx]
            have hcj' := hcontent j (by omega) hjl
            rw [List.flatten_cons, List.getElem?_append_right (by omega), hp0] at hcj'
            simpa [Nat.add_sub_cancel_left] using hcj'
  · have hrlt : rc < pageSize := by omega
    cases ch with
    | nil => exact absurd rfl hch
    | cons p0 rest =>
      have hp0 : p0.length = pageSize := hpages p0 (List.mem_cons_self _ _)
      have hcc := hcontent c (Nat.le_refl c) hclt
      rw [Nat.sub_self, Nat.add_zero, List.flatten_cons,
        List.getElem?_append_left (by omega)] at hcc
      have hgot : p0.getD rc default = P.getD c default := by
        rw [List.getD_eq_getElem?_getD, List.getD_eq_getElem?_getD, hcc]
      refine ⟨⟨val - 1, p0 :: rest, fc, rc + 1⟩, ?_, ?_⟩
      · rw [← hgot]
        simp [UnboundedSingleQueue.Consume, hv, hbr]
      · refine ⟨by simp, hpages, by dsimp only; omega, hfc, by omega,
          by dsimp only; omega, ?_, ?_⟩
        · dsimp only
          omega
        · intro j hcj hjl
          dsimp only
          have hidx : rc + 1 + (j - (c + 1)) = rc + (j - c) := by omega
          rw [hidx]
          exact hcontent j (by omega) hjl

/-- A produce-only history never blocks: it runs to completion from any
state, with no consumed output, because `Produce` contains no semaphore
wait. -/
theorem runUSQ_produce_only {α : Type} [Inhabited α] :
    ∀ (vs : List α) (q : UnboundedSingleQueue α),
      runUSQ q (vs.map QOp.prod) = some (q.produceAll vs, [])
  | [], _ => rfl
  | v :: rest, q => by
    simp only [List.map_cons, runUSQ, UnboundedSingleQueue.produceAll]
    exact runUSQ_produce_only rest (q.Produce v)

/-- Producing a whole list preserves the invariant, extending the
history. -/
theorem produceAll_inv {α : Type} [Inhabited α] :
    ∀ (vs P : List α) (c : Nat) (q : UnboundedSingleQueue α),
      USQInv P c q → USQInv (P ++ vs) c (q.produceAll vs)
  | [], P, c, q, h => by simpa using h
  | v :: rest, P, c, q, h => by
    have h2 := produceAll_inv rest (P ++ [v]) c (q.Produce v) (USQ_Produce_inv v h)
    simpa [List.append_assoc] using h2

/-- Draining `n` pending items by successive `Consume` calls succeeds and
returns the pending values in production order. -/
theorem runUSQ_consumeN {α : Type} [Inhabited α] :
    ∀ (n : Nat) (P : List α) (c : Nat) (q : UnboundedSingleQueue α),
      USQInv P c q → c + n ≤ P.length →
      ∃ qf, runUSQ q (List.replicate n QOp.cons) = some (qf, (P.drop c).take n)
  | 0, P, c, q, _, _ => ⟨q, by simp [runUSQ]⟩
  | n + 1, P, c, q, hinv, hn => by
    have hclt : c < P.length := by omega
    obtain ⟨q', heq, hinv'⟩ := USQ_Consume_inv hinv hclt
    obtain ⟨qf, hrest⟩ := runUSQ_consumeN n P (c + 1) q' hinv' (by omega)
    refine ⟨qf, ?_⟩
    simp only [List.replicate_succ, runUSQ, heq, hrest]
    have hPc : P.getD c default = P[c] := by
      rw [List.getD_eq_getElem?_getD, List.getElem?_eq_getElem hclt]
      rfl
    rw [List.drop_eq_getElem_cons hclt, List.take_succ_cons, hPc]

/-- Running a concatenated history is running the pieces in sequence. -/
theorem runUSQ_append {α : Type} [Inhabited α] (t2 : List (QOp α))
    {qf : UnboundedSingleQueue α} {o2 : List α} :
    ∀ (t1 : List (QOp α)) (q q1 : UnboundedSingleQueue α) (o1 : List α),
      runUSQ q t1 = some (q1, o1) → runUSQ q1 t2 = some (qf, o2) →
      runUSQ q (t1 ++ t2) = some (qf, o1 ++ o2) := by
  intro t1
  induction t1 with
  | nil =>
    intro q q1 o1 h1 h2
    simp only [runUSQ, Option.some.injEq, Prod.mk.injEq] at h1
    obtain ⟨rfl, rfl⟩ := h1
    simpa using h2
  | cons op rest ih =>
    intro q q1 o1 h1 h2
    cases op with
    | prod v =>
      simp only [runUSQ] at h1
      rw [List.cons_append]
      simp only [runUSQ]
      exact ih (q.Produce v) q1 o1 h1 h2
    | cons =>
      simp only [runUSQ] at h1
      cases hq : q.Consume with
      | none =>
        simp only [hq] at h1
        exact Option.noConfusion h1
      | some r =>
        obtain ⟨out, q'⟩ := r
        simp only [hq] at h1
        cases hrest : runUSQ q' rest with
        | none =>
          simp only [hrest] at h1
          exact Option.noConfusion h1
        | some rf =>
          obtain ⟨qm, om⟩ := rf
          simp only [hrest, Option.some.injEq, Prod.mk.injEq] at h1
          obtain ⟨rfl, rfl⟩ := h1
          rw [List.cons_append]
          simp only [runUSQ, hq, ih q' qm om hrest h2, List.cons_append]

/-- C5: `UnboundedSingleQueue::Produce` never waits on a semaphore — a
produce-only history runs to completion from any state — and a consumer
that starts after all `n` `Produce` calls receives all `n` items in
produced order via successive `Consume` calls. -/
theorem usq_nonblocking_fifo {α : Type} [Inhabited α] (vs : List α)
    (q0 : UnboundedSingleQueue α) :
    runUSQ q0 (vs.map QOp.prod) = some (q0.produceAll vs, []) ∧
    ∃ qf, runUSQ (mkUnboundedSingleQueue α)
        (vs.map QOp.prod ++ List.replicate vs.length QOp.cons) = some (qf, vs) := by
  refine ⟨runUSQ_produce_only vs q0, ?_⟩
  have hinv : USQInv vs 0 ((mkUnboundedSingleQueue α).produceAll vs) := by
    simpa using produceAll_inv vs [] 0 _ mkUSQ_inv
  obtain ⟨qf, hcons⟩ := runUSQ_consumeN vs.length vs 0 _ hinv (by omega)
  simp only [List.drop_zero, List.take_length] at hcons
  refine ⟨qf, ?_⟩
  have := runUSQ_append (List.replicate vs.length QOp.cons) (vs.map QOp.prod)
    (mkUnboundedSingleQueue α) _ [] (runUSQ_produce_only vs _) hcons
  simpa using this

/-- Soundness of any linearized `UnboundedSingleQueue` history: the
invariant is preserved to the final state and the consumed values are the
pending segment of the produced history, in order. -/
theorem runUSQ_sound {α : Type} [Inhabited α] :
    ∀ (t : List (QOp α)) (P : List α) (c : Nat)
      (q qf : UnboundedSingleQueue α) (outs : List α),
    USQInv P c q → runUSQ q t = some (qf, outs) →
    USQInv (P ++ producedOf t) (c + numCons t) qf ∧
      outs = ((P ++ producedOf t).drop c).take (numCons t) := by
  intro t
  induction t with
  | nil =>
    intro P c q qf outs hinv h
    simp only [runUSQ, Option.some.injEq, Prod.mk.injEq] at h
    obtain ⟨rfl, rfl⟩ := h
    simpa [producedOf, numCons] using hinv
  | cons op rest ih =>
    intro P c q qf outs hinv h
    cases op with
    | prod v =>
      simp only [runUSQ] at h
      have := ih (P ++ [v]) c (q.Produce v) qf outs (USQ_Produce_inv v hinv) h
      simpa [producedOf, numCons, List.append_assoc] using this
    | cons =>
      simp only [runUSQ] at h
      cases hq : q.Consume with
      | none =>
        simp only [hq] at h
        exact Option.noConfusion h
      | some r =>
        obtain ⟨out, q1⟩ := r
        have hclt : c < P.length := by
          by_contra hge
          have hvv := hinv.hvalid
          have hcc := hinv.hc
          have hv0 : q.valid = 0 := by omega
          have hnone : q.Consume = none := by
            obtain ⟨val, ch, fc, rc⟩ := q
            dsimp only at hv0
            simp [UnboundedSingleQueue.Consume, hv0]
          rw [hnone] at hq
          exact Option.noConfusion hq
        obtain ⟨q', heq, hinv'⟩ := USQ_Consume_inv hinv hclt
        rw [heq] at hq
        obtain ⟨rfl, rfl⟩ := Prod.mk.injEq .. ▸ Option.some_injective _ hq
        simp only [heq] at h
        cases hrest : runUSQ q' rest with
        | none =>
          simp only [hrest] at h
          exact Option.noConfusion h
        | some rf =>
          obtain ⟨qf', outs'⟩ := rf
          simp only [hrest, Option.some.injEq, Prod.mk.injEq] at h
          obtain ⟨rfl, rfl⟩ := h
          obtain ⟨hinvf, houts⟩ := ih P (c + 1) q' qf' outs' hinv' hrest
          have hlenc : c < (P ++ producedOf rest).length := by
            simp only [List.length_append]
            omega
          refine ⟨by simpa [producedOf, numCons, Nat.add_assoc, Nat.add_comm 1] using hinvf, ?_⟩
          rw [houts, producedOf, numCons,
            List.drop_eq_getElem_cons hlenc, List.take_succ_cons]
          congr 1
          have hPc : (P ++ producedOf rest)[c]? = P[c]? :=
            List.getElem?_append_left hclt
          have h2 : (P ++ producedOf rest)[c]? = some ((P ++ producedOf rest)[c]) :=
            List.getElem?_eq_getElem hlenc
          rw [List.getD_eq_getElem?_getD, ← hPc, h2]
          rfl

/-- C9: the `available-items` counter of an `UnboundedSingleQueue` starts
at `0`, and after any completed history of `n` `Produce` and `m`
`Consume` calls it equals `n - m`, the number of produced-but-not-yet-
consumed items (with `m ≤ n`). -/
theorem usq_valid_counts {α : Type} [Inhabited α] (t : List (QOp α))
    (qf : UnboundedSingleQueue α) (outs : List α)
    (h : runUSQ (mkUnboundedSingleQueue α) t = some (qf, outs)) :
    (mkUnboundedSingleQueue α).valid = 0 ∧
    numCons t ≤ (producedOf t).length ∧
    qf.valid = (producedOf t).length - numCons t := by
  obtain ⟨hinvf, -⟩ := runUSQ_sound t [] 0 (mkUnboundedSingleQueue α) qf outs mkUSQ_inv h
  have h1 := hinvf.hc
  have h2 := hinvf.hvalid
  simp only [List.nil_append, Nat.zero_add] at h1 h2
  exact ⟨rfl, h1, h2⟩

/-- C9 witness: producing one value and consuming it leaves the counter
at `1 - 1`. -/
theorem usq_valid_counts_witness :
    (mkUnboundedSingleQueue Nat).valid = 0 ∧
    numCons [QOp.prod (1 : Nat), QOp.cons] ≤
      (producedOf [QOp.prod (1 : Nat), QOp.cons]).length ∧
    (⟨0, [(freshPage Nat).set 0 1], 1, 1⟩ : UnboundedSingleQueue Nat).valid =
      (producedOf [QOp.prod (1 : Nat), QOp.cons]).length -
        numCons [QOp.prod (1 : Nat), QOp.cons] :=
  usq_valid_counts [QOp.prod 1, QOp.cons]
    ⟨0, [(freshPage Nat).set 0 1], 1, 1⟩ [1] rfl

/-- A run of produces that fits inside the current filling page allocates
no page and only advances the filling cursor. -/
theorem produceAll_no_alloc {α : Type} [Inhabited α] :
    ∀ (vs : List α) (q : UnboundedSingleQueue α),
      q.filling_cur + vs.length ≤ pageSize →
      (q.produceAll vs).chain.length = q.chain.length ∧
      (q.produceAll vs).filling_cur = q.filling_cur + vs.length
  | [], q, _ => ⟨rfl, rfl⟩
  | v :: rest, q, h => by
    have hlen : q.filling_cur + (rest.length + 1) ≤ pageSize := by
      simpa using h
    have hne : ¬ q.filling_cur = pageSize := by omega
    have hq : (q.Produce v).chain.length = q.chain.length ∧
        (q.Produce v).filling_cur = q.filling_cur + 1 := by
      simp [UnboundedSingleQueue.Produce, hne, modifyLast_length]
    have hrec := produceAll_no_alloc rest (q.Produce v) (by rw [hq.2]; omega)
    refine ⟨?_, ?_⟩
    · rw [show q.produceAll (v :: rest) = (q.Produce v).produceAll rest from rfl,
        hrec.1, hq.1]
    · rw [show q.produceAll (v :: rest) = (q.Produce v).produceAll rest from rfl,
        hrec.2, hq.2]
      simp only [List.length_cons]
      omega

/-- One `Produce` keeps every live page at exactly `pageSize` entries. -/
theorem Produce_pages {α : Type} [Inhabited α] (q : UnboundedSingleQueue α) (v : α)
    (hp : ∀ p ∈ q.chain, p.length = pageSize) :
    ∀ p ∈ (q.Produce v).chain, p.length = pageSize := by
  by_cases hfull : q.filling_cur = pageSize
  · simp only [UnboundedSingleQueue.Produce, hfull, if_pos]
    refine modifyLast_pages _ pageSize (fun p => List.length_set p _ v) _ ?_
    intro p hp'
    rcases List.mem_append.mp hp' with h | h
    · exact hp p h
    · simp only [List.mem_singleton] at h
      subst h
      simp [freshPage]
  · simp only [UnboundedSingleQueue.Produce, hfull, if_neg, if_false]
    exact modifyLast_pages _ pageSize (fun p => List.length_set p _ v) q.chain hp

/-- Any run of produces keeps every live page at `pageSize` entries. -/
theorem produceAll_pages {α : Type} [Inhabited α] :
    ∀ (vs : List α) (q : UnboundedSingleQueue α),
      (∀ p ∈ q.chain, p.length = pageSize) →
      ∀ p ∈ (q.produceAll vs).chain, p.length = pageSize
  | [], _, hp => hp
  | v :: rest, q, hp => produceAll_pages rest (q.Produce v) (Produce_pages q v hp)

/-- C10: every page holds exactly 1023 slots, the constructor allocates
exactly one page (serving as both filling and reading page), `Produce`
allocates a fresh page exactly when the filling page already holds 1023
written items, and producing at most 1023 items from a fresh queue never
allocates a second page. -/
theorem usq_page_geometry {α : Type} [Inhabited α] (vs : List α)
    (q : UnboundedSingleQueue α) (v : α) :
    pageSize = 1023 ∧
    (freshPage α).length = 1023 ∧
    (mkUnboundedSingleQueue α).chain = [freshPage α] ∧
    ((q.Produce v).chain.length =
      if q.filling_cur = pageSize then q.chain.length + 1 else q.chain.length) ∧
    (vs.length ≤ 1023 → ((mkUnboundedSingleQueue α).produceAll vs).chain.length = 1) ∧
    (∀ p ∈ ((mkUnboundedSingleQueue α).produceAll vs).chain, p.length = 1023) := by
  have hmkpages : ∀ p ∈ (mkUnboundedSingleQueue α).chain, p.length = pageSize := by
    intro p hp
    simp only [mkUnboundedSingleQueue, List.mem_singleton] at hp
    subst hp
    simp [freshPage]
  refine ⟨rfl, by rw [freshPage, List.length_replicate]; rfl, rfl, ?_, ?_, ?_⟩
  · by_cases hfull : q.filling_cur = pageSize
    · rw [if_pos hfull]
      simp only [UnboundedSingleQueue.Produce, hfull, if_true, if_pos]
      rw [modifyLast_length, List.length_append]
      rfl
    · rw [if_neg hfull]
      simp only [UnboundedSingleQueue.Produce, hfull, if_false]
      rw [modifyLast_length]
  · intro hn
    have hfit : (mkUnboundedSingleQueue α).filling_cur + vs.length ≤ pageSize := by
      simp only [mkUnboundedSingleQueue, pageSize]
      omega
    rw [(produceAll_no_alloc vs (mkUnboundedSingleQueue α) hfit).1]
    rfl
  · have := produceAll_pages vs (mkUnboundedSingleQueue α) hmkpages
    simpa [pageSize] using this

/-- C10 witness: producing two items from a fresh queue leaves a single
page in the chain. -/
theorem usq_page_geometry_witness :
    ((mkUnboundedSingleQueue Nat).produceAll [7, 8]).chain.length = 1 :=
  (usq_page_geometry [7, 8] (mkUnboundedSingleQueue Nat) 0).2.2.2.2.1 (by decide)
